import Mathlib

/-!
Verification development for the Strategies backtesting repository.

The repository (project1) wires three strategy classes (SMA crossover, ATR
breakout, VWAP reversion) to an external vectorized backtesting library:
each class builds boolean entry and exit matrices and delegates the
signal-to-equity simulation and the statistics reduction to that library.
The specification makes the delegated engine explicit as a per-symbol
FLAT/LONG state machine and a five-statistic reducer.  Below, the engine
and reducer are modelled from the specification (their code is not part of
the repository), while the parts that do live in the repository sources
(the SMA constructor check and the SMA symbol filtering) are embedded
directly from the Python code.

All monetary quantities are modelled as rationals.
-/

namespace Strategies

/-- Modelled from the spec: simulation configuration
`{initial_cash_per_symbol, fee_rate, slippage_rate, max_holding_bars}`
(section 4.1).  The concrete runs in the repository use
`init_cash=10, fees=0.001, slippage=0.0011` and no holding cap. -/
structure Config where
  initial_cash_per_symbol : ℚ
  fee_rate : ℚ
  slippage_rate : ℚ
  max_holding_bars : Option ℕ
deriving DecidableEq

/-- Modelled from the spec: per-symbol mutable position state
`{is_open, entry_time, entry_price, units, bars_held}` (section 3).
`entryPrice` stores the slippage-adjusted fill price. -/
structure Position where
  isOpen : Bool
  entryTime : ℕ
  entryPrice : ℚ
  units : ℚ
  barsHeld : ℕ
deriving DecidableEq

/-- The reset position owned by a symbol before any entry. -/
def Position.flat : Position := ⟨false, 0, 0, 0, 0⟩

/-- Modelled from the spec: immutable trade record emitted when a position
closes (section 3).  The symbol tag is implicit: each per-symbol run keeps
its own trade list. -/
structure Trade where
  entryTime : ℕ
  entryPrice : ℚ
  exitTime : ℕ
  exitPrice : ℚ
  units : ℚ
  grossPnl : ℚ
  netPnl : ℚ
  returnPct : ℚ
deriving DecidableEq

/-- One bar of input for one symbol: the close price and the two boolean
signals aligned to it. -/
structure Cell where
  close : ℚ
  entry : Bool
  exitSig : Bool
deriving DecidableEq

/-- Default cell used by positional lookups. -/
def dCell : Cell := ⟨0, false, false⟩

/-- Default trade used by positional lookups. -/
def dTrade : Trade := ⟨0, 0, 0, 0, 0, 0, 0, 0⟩

/-- Running state of one symbol during a simulation: position, realized
profit and loss to date, emitted trades, and the equity points produced so
far (one per processed bar). -/
structure SymState where
  pos : Position
  realized : ℚ
  trades : List Trade
  equity : List ℚ
deriving DecidableEq

/-- Each symbol starts FLAT with no realized pnl, no trades and an empty
equity curve. -/
def initState : SymState := ⟨Position.flat, 0, [], []⟩

/-- Modelled from the spec: the time-stop guard
`bars_held >= max_holding_bars` (section 4.1); absent a cap it never
fires. -/
def timeStop (cfg : Config) (p : Position) : Bool :=
  match cfg.max_holding_bars with
  | some m => decide (m ≤ p.barsHeld)
  | none => false

/-- Modelled from the spec: the trade realized when closing position `p`
at bar `t` with close price `c`:
`fill = c * (1 - slippage_rate)` and
`net_pnl = units*fill*(1-fee_rate) - units*entry_price*(1+fee_rate)`
(section 4.1).  `returnPct` is net pnl over entry cost, guarded to `0`
when the cost is zero. -/
def closeTrade (cfg : Config) (p : Position) (t : ℕ) (c : ℚ) : Trade :=
  let fill := c * (1 - cfg.slippage_rate)
  let gross := p.units * fill - p.units * p.entryPrice
  let net := p.units * fill * (1 - cfg.fee_rate) - p.units * p.entryPrice * (1 + cfg.fee_rate)
  let cost := p.units * p.entryPrice
  ⟨p.entryTime, p.entryPrice, t, fill, p.units, gross, net,
    if cost = 0 then 0 else net / cost * 100⟩

/-- Modelled from the spec: one transition of the per-symbol FLAT/LONG
state machine at bar `t` (section 4.1).
While LONG, an exit signal or the time stop closes the position, realizes
the trade and records FLAT equity `initial_cash + realized`; otherwise the
bar is held (`bars_held` incremented) at mark-to-market equity
`realized + units * close`.  While FLAT, an entry signal opens at
`fill = close * (1 + slippage_rate)` with `units = initial_cash / fill`
(LONG equity `realized + units * close`); otherwise equity stays at
`initial_cash + realized`.  The entry-time fee is realized inside the
closing `net_pnl` formula, which already charges `(1+fee_rate)` on the
entry leg, matching the equity equations and the end-to-end scenario of
section 8. -/
def stepCell (cfg : Config) (st : SymState) (t : ℕ) (cell : Cell) : SymState :=
  if st.pos.isOpen then
    if cell.exitSig || timeStop cfg st.pos then
      let tr := closeTrade cfg st.pos t cell.close
      ⟨Position.flat, st.realized + tr.netPnl, st.trades ++ [tr],
        st.equity ++ [cfg.initial_cash_per_symbol + (st.realized + tr.netPnl)]⟩
    else
      ⟨{ st.pos with barsHeld := st.pos.barsHeld + 1 }, st.realized, st.trades,
        st.equity ++ [st.realized + st.pos.units * cell.close]⟩
  else
    if cell.entry then
      let fill := cell.close * (1 + cfg.slippage_rate)
      let units := cfg.initial_cash_per_symbol / fill
      ⟨⟨true, t, fill, units, 0⟩, st.realized, st.trades,
        st.equity ++ [st.realized + units * cell.close]⟩
    else
      ⟨st.pos, st.realized, st.trades,
        st.equity ++ [cfg.initial_cash_per_symbol + st.realized]⟩

/-- Simulate one symbol from bar index `t` onward, starting in state `st`,
processing the remaining cells in time order. -/
def runSymFrom (cfg : Config) (t : ℕ) (st : SymState) : List Cell → SymState
  | [] => st
  | cell :: rest => runSymFrom cfg (t + 1) (stepCell cfg st t cell) rest

/-- Simulate one symbol over its full column of bars, in time order. -/
def runSym (cfg : Config) (col : List Cell) : SymState :=
  runSymFrom cfg 0 initState col

/-- Advance every symbol of the universe by one bar (one time-major row). -/
def stepRow (cfg : Config) (sts : List SymState) (t : ℕ) (row : List Cell) : List SymState :=
  List.zipWith (fun st cell => stepCell cfg st t cell) sts row

/-- Advance all symbols from bar index `t` onward over the remaining
time-major rows. -/
def runAllFrom (cfg : Config) (t : ℕ) (sts : List SymState) : List (List Cell) → List SymState
  | [] => sts
  | row :: rest => runAllFrom cfg (t + 1) (stepRow cfg sts t row) rest

/-- Modelled from the spec: the single-pass multi-symbol simulation, a
time-major sweep that advances all `S` per-symbol state machines bar by
bar (sections 4.1 and 5). -/
def runAll (cfg : Config) (S : ℕ) (rows : List (List Cell)) : List SymState :=
  runAllFrom cfg 0 (List.replicate S initState) rows

/-- Column `i` of a time-major table of cells. -/
def column (i : ℕ) (rows : List (List Cell)) : List Cell :=
  rows.map (fun row => row.getD i dCell)

/-- Modelled from the spec: the per-symbol decomposition of the run, each
symbol simulated on its own column, results merged in symbol order
(section 5).  This is the second side of the parallel-merge refinement. -/
def perSymbolRun (cfg : Config) (S : ℕ) (rows : List (List Cell)) : List SymState :=
  (List.range S).map (fun i => runSym cfg (column i rows))

/-- The merged trade log: per-symbol logs concatenated in symbol order. -/
def mergedTrades (sts : List SymState) : List Trade :=
  (sts.map (fun st => st.trades)).flatten

/-- Aggregate equity over `n` bars: at each time index, the sum of the
per-symbol equity points (section 4.1: aggregate equity at t is the sum
over symbols). -/
def aggregateEquity (n : ℕ) (sts : List SymState) : List ℚ :=
  (List.range n).map (fun t => (sts.map (fun st => st.equity.getD t 0)).sum)

/-- Modelled from the spec: the configuration precondition
`fee_rate, slippage_rate ∈ [0,1)` and `initial_cash_per_symbol > 0`
(section 4.1). -/
def validConfig (cfg : Config) : Bool :=
  decide (0 ≤ cfg.fee_rate) && decide (cfg.fee_rate < 1) &&
  decide (0 ≤ cfg.slippage_rate) && decide (cfg.slippage_rate < 1) &&
  decide (0 < cfg.initial_cash_per_symbol)

/-- Modelled from the spec: the shape precondition that `entries` and
`exits` share exactly the time-by-symbol domain of the bar table
(section 4.1): same number of rows, and every row of every table has
exactly `S` symbols. -/
def validShapes (S : ℕ) (closes : List (List ℚ))
    (entries exits : List (List Bool)) : Bool :=
  (entries.length == closes.length) && (exits.length == closes.length) &&
  closes.all (fun r => r.length == S) &&
  entries.all (fun r => r.length == S) &&
  exits.all (fun r => r.length == S)

/-- Modelled from the spec: the `ConfigError` raised on malformed or
inconsistent configuration or signal shapes (section 7). -/
inductive ConfigError
  | mk
deriving DecidableEq

/-- Zip the aligned close, entry and exit tables into one table of cells. -/
def buildRows (closes : List (List ℚ)) (entries exits : List (List Bool)) :
    List (List Cell) :=
  List.zipWith (fun cr ex => List.zipWith (fun c p => Cell.mk c p.1 p.2) cr
    (List.zipWith (fun e x => (e, x)) ex.1 ex.2))
    closes (List.zipWith (fun e x => (e, x)) entries exits)

/-- Modelled from the spec: `simulate(bars, entries, exits, config)`
(section 4.1) with its precondition checks.  A violated precondition
fails with `ConfigError` before any state machine step runs; otherwise
the full multi-symbol run is produced. -/
def simulate (cfg : Config) (S : ℕ) (closes : List (List ℚ))
    (entries exits : List (List Bool)) : Except ConfigError (List SymState) :=
  if validConfig cfg && validShapes S closes entries exits then
    Except.ok (runAll cfg S (buildRows closes entries exits))
  else
    Except.error ConfigError.mk

/-- Mean of a list of rationals, `0` on the empty list. -/
def meanQ (l : List ℚ) : ℚ :=
  if l.length = 0 then 0 else l.sum / l.length

/-- Population variance of a list of rationals, `0` on the empty list. -/
def varianceQ (l : List ℚ) : ℚ :=
  meanQ (l.map (fun x => (x - meanQ l) ^ 2))

/-- Modelled from the spec: simple period-over-period returns of an equity
curve (section 4.2), guarded to `0` on a zero previous value so that no
undefined value is surfaced. -/
def periodReturns (equity : List ℚ) : List ℚ :=
  List.zipWith (fun prev cur => if prev = 0 then 0 else cur / prev - 1)
    equity equity.tail

/-- Modelled from the spec:
`total_return_pct = (final_aggregate_equity / initial_aggregate_equity - 1) * 100`
(section 4.2), resolving to `0` on an empty curve or zero initial equity
per the degenerate-input rule of sections 4.2 and 7. -/
def totalReturnPct (equity : List ℚ) (initialAgg : ℚ) : ℚ :=
  match equity.getLast? with
  | none => 0
  | some fin => if initialAgg = 0 then 0 else (fin / initialAgg - 1) * 100

/-- Modelled from the spec:
`sharpe_ratio = mean(period_returns) / stdev(period_returns) * sqrt(freq_per_year)`
on the aggregate curve, defined as `0.0` when the standard deviation is
zero (flat or single-point curve) rather than failing (section 4.2).
The square root lives in the reals, hence the noncomputable marker; every
claim about this statistic factors through the rational variance guard. -/
noncomputable def sharpeRatio (equity : List ℚ) (freqPerYear : ℚ) : ℝ :=
  let r := periodReturns equity
  if varianceQ r = 0 then 0
  else ((meanQ r : ℝ) / Real.sqrt (varianceQ r)) * Real.sqrt (freqPerYear : ℝ)

/-- Running maxima of a list (the value at index t is the max of the
prefix up to t), used by the drawdown statistic. -/
def runningMax : List ℚ → List ℚ
  | [] => []
  | x :: xs => x :: (runningMax xs).map (fun m => max x m)

/-- Modelled from the spec:
`max_drawdown_pct = max over t of (1 - equity[t]/running_max(equity[0..t])) * 100`
(section 4.2), guarded to `0` on a zero running peak and `0` on an empty
curve. -/
def maxDrawdownPct (equity : List ℚ) : ℚ :=
  (List.zipWith (fun e m => if m = 0 then 0 else (1 - e / m) * 100)
    equity (runningMax equity)).foldl max 0

/-- Modelled from the spec:
`win_rate_pct = 100 * count(net_pnl > 0) / count(trades)`, `0` when there
are no trades (section 4.2). -/
def winRatePct (trades : List Trade) : ℚ :=
  if trades.length = 0 then 0
  else 100 * ((trades.filter (fun tr => decide (0 < tr.netPnl))).length : ℚ) / trades.length

/-- Modelled from the spec: `expectancy = mean(net_pnl across trades)`,
`0` when there are no trades (section 4.2). -/
def expectancy (trades : List Trade) : ℚ :=
  if trades.length = 0 then 0
  else (trades.map (fun tr => tr.netPnl)).sum / trades.length

/-- Embedded from src/project1/strategies/sma_cross.py, generate_signals
lines 35 and 36: a symbol column is kept only when its count of non-NaN
closes is at least `slow_window`; the close table (and hence every later
portfolio and equity column) is restricted to the kept symbols. -/
def smaValidSymbols (closeCols : List (String × List (Option ℚ)))
    (slow_window : ℕ) : List String :=
  (closeCols.filter
    (fun col => slow_window ≤ (col.2.filter (fun v => v.isSome)).length)).map
    (fun col => col.1)

/-- The state stored by the SMA crossover strategy object right after
construction: the two windows, and the not-yet-generated signals and
portfolio (both None in the source). -/
structure SMACrossoverStrategy where
  fast_window : ℕ
  slow_window : ℕ
  signals : Option Unit
  portfolio : Option Unit
deriving DecidableEq

/-- The ValueError raised by the SMA constructor. -/
inductive ValueError
  | mk
deriving DecidableEq

/-- Embedded from src/project1/strategies/sma_cross.py, lines 11 to 25:
the constructor raises ValueError when `fast_window >= slow_window`,
otherwise stores both windows unchanged with `signals = None` and
`portfolio = None`. -/
def smaCrossoverInit (fast_window slow_window : ℕ) :
    Except ValueError SMACrossoverStrategy :=
  if slow_window ≤ fast_window then Except.error ValueError.mk
  else Except.ok ⟨fast_window, slow_window, none, none⟩

/-- The fee-independent core of a trade: entry time, entry fill, exit
time, exit fill and units. -/
def tradeCore (tr : Trade) : ℕ × ℚ × ℕ × ℚ × ℚ :=
  (tr.entryTime, tr.entryPrice, tr.exitTime, tr.exitPrice, tr.units)

/-- A trade is well-formed for fee rate `fee` when its recorded net pnl
satisfies the closing formula of section 4.1 over its own fields and its
units and fill prices are nonnegative. -/
def goodTrade (fee : ℚ) (tr : Trade) : Prop :=
  tr.netPnl = tr.units * tr.exitPrice * (1 - fee)
      - tr.units * tr.entryPrice * (1 + fee)
    ∧ 0 ≤ tr.units ∧ 0 ≤ tr.entryPrice ∧ 0 ≤ tr.exitPrice

/-- Invariant carried through a run: the open position has nonnegative
units and entry price, and every emitted trade is well-formed. -/
def goodState (fee : ℚ) (st : SymState) : Prop :=
  0 ≤ st.pos.units ∧ 0 ≤ st.pos.entryPrice ∧ ∀ tr ∈ st.trades, goodTrade fee tr

/-- The end-to-end scenario configuration of section 8:
`initial_cash_per_symbol = 10`, `fee_rate = 0.001`,
`slippage_rate = 0.0011`, no holding cap. -/
def scenarioConfig : Config := ⟨10, 1 / 1000, 11 / 10000, none⟩

/-- The end-to-end scenario column of section 8: closes
`[100, 105, 95, 110, 120]`, entries `[T,F,F,F,F]`, exits `[F,F,F,F,T]`. -/
def scenarioColumn : List Cell :=
  [⟨100, true, false⟩, ⟨105, false, false⟩, ⟨95, false, false⟩,
   ⟨110, false, false⟩, ⟨120, false, true⟩]

/-- A two-symbol close table in which symbol B has a single non-NaN bar,
fewer than a slow window of 3: input for the symbol-filtering check of
sma_cross.py lines 35 and 36. -/
def shortSymbolCols : List (String × List (Option ℚ)) :=
  [("A", [some 1, some 2, some 3]), ("B", [some 1, none, none])]

end Strategies

namespace Strategies

/-- A FLAT symbol that receives no entry signal stays FLAT and appends one
equity point `initial_cash + realized` per bar. -/
theorem runSymFrom_no_entry (cfg : Config) (col : List Cell) :
    ∀ (t : ℕ) (r : ℚ) (tr : List Trade) (eq : List ℚ),
    (∀ cell ∈ col, cell.entry = false) →
    runSymFrom cfg t ⟨Position.flat, r, tr, eq⟩ col =
      ⟨Position.flat, r, tr,
        eq ++ List.replicate col.length (cfg.initial_cash_per_symbol + r)⟩ := by
  induction col with
  | nil => intro t r tr eq h; simp [runSymFrom]
  | cons cell rest ih =>
    intro t r tr eq h
    have hc : cell.entry = false := h cell (List.mem_cons_self _ _)
    have hrest : ∀ c ∈ rest, c.entry = false :=
      fun c hcm => h c (List.mem_cons_of_mem _ hcm)
    have hstep : stepCell cfg ⟨Position.flat, r, tr, eq⟩ t cell =
        ⟨Position.flat, r, tr, eq ++ [cfg.initial_cash_per_symbol + r]⟩ := by
      simp [stepCell, Position.flat, hc]
    simp only [runSymFrom, hstep, ih (t + 1) r tr _ hrest]
    simp [List.replicate_succ, List.append_assoc]

/-- Element lookup through `getD` on a replicate list returns the element. -/
theorem getD_replicate {α : Type} (a : α) :
    ∀ (n i : ℕ), (List.replicate n a).getD i a = a := by
  intro n
  induction n with
  | zero => intro i; simp
  | succ k ih =>
    intro i
    cases i with
    | zero => simp [List.replicate_succ]
    | succ j => simp [List.replicate_succ, List.getD_cons_succ, ih j]

/-- C7: a symbol whose entry signal is false at every bar produces zero
trades and a constant equity curve equal to `initial_cash_per_symbol` at
every time index of the run. -/
theorem no_entry_zero_trades_flat_equity (cfg : Config) (col : List Cell)
    (h : ∀ cell ∈ col, cell.entry = false) :
    (runSym cfg col).trades = [] ∧
    (runSym cfg col).equity =
      List.replicate col.length cfg.initial_cash_per_symbol ∧
    ∀ t < col.length,
      (runSym cfg col).equity.getD t cfg.initial_cash_per_symbol =
        cfg.initial_cash_per_symbol := by
  have hrun : runSym cfg col =
      ⟨Position.flat, 0, [],
        [] ++ List.replicate col.length (cfg.initial_cash_per_symbol + 0)⟩ :=
    runSymFrom_no_entry cfg col 0 0 [] [] h
  have htr : (runSym cfg col).trades = [] := by rw [hrun]
  have heq : (runSym cfg col).equity =
      List.replicate col.length cfg.initial_cash_per_symbol := by
    rw [hrun]; simp
  refine ⟨htr, heq, ?_⟩
  intro t ht
  rw [heq]
  exact getD_replicate cfg.initial_cash_per_symbol col.length t

/-- Witness for C7: a two-bar column with no entry signals yields no
trades and the constant equity curve at the scenario cash of 10. -/
theorem no_entry_zero_trades_flat_equity_witness :
    (runSym scenarioConfig
        [⟨100, false, false⟩, ⟨105, false, true⟩]).trades = [] ∧
    (runSym scenarioConfig
        [⟨100, false, false⟩, ⟨105, false, true⟩]).equity =
      List.replicate 2 10 :=
  ⟨(no_entry_zero_trades_flat_equity scenarioConfig
      [⟨100, false, false⟩, ⟨105, false, true⟩] (by decide)).1,
   (no_entry_zero_trades_flat_equity scenarioConfig
      [⟨100, false, false⟩, ⟨105, false, true⟩] (by decide)).2.1⟩

/-- `getD` commutes with `zipWith` at indices inside both lists. -/
theorem getD_zipWith_of_lt {α β γ : Type} (f : α → β → γ) :
    ∀ (as : List α) (bs : List β) (i : ℕ), i < as.length → i < bs.length →
    ∀ (da : α) (db : β) (dc : γ),
    (List.zipWith f as bs).getD i dc = f (as.getD i da) (bs.getD i db) := by
  intro as
  induction as with
  | nil => intro bs i hi; simp at hi
  | cons a as ih =>
    intro bs i hi hj da db dc
    cases bs with
    | nil => simp at hj
    | cons b bs =>
      cases i with
      | zero => simp
      | succ k =>
        simp only [List.zipWith_cons_cons, List.getD_cons_succ]
        exact ih bs k (Nat.lt_of_succ_lt_succ hi) (Nat.lt_of_succ_lt_succ hj)
          da db dc

/-- Advancing all symbols one bar preserves the number of symbols when the
row covers the universe. -/
theorem stepRow_length (cfg : Config) (sts : List SymState) (t : ℕ)
    (row : List Cell) (h : row.length = sts.length) :
    (stepRow cfg sts t row).length = sts.length := by
  simp [stepRow, h]

/-- The multi-symbol sweep never drops a symbol: the output has one state
per symbol of the universe. -/
theorem runAllFrom_length (cfg : Config) (rows : List (List Cell)) :
    ∀ (t : ℕ) (sts : List SymState) (S : ℕ), sts.length = S →
    (∀ row ∈ rows, row.length = S) →
    (runAllFrom cfg t sts rows).length = S := by
  induction rows with
  | nil => intro t sts S hs _; simpa [runAllFrom] using hs
  | cons row rest ih =>
    intro t sts S hs h
    have hrow : row.length = S := h row (List.mem_cons_self _ _)
    have hrest : ∀ r ∈ rest, r.length = S :=
      fun r hr => h r (List.mem_cons_of_mem _ hr)
    simp only [runAllFrom]
    exact ih (t + 1) _ S
      (by rw [stepRow_length cfg sts t row (by rw [hrow, hs])]; exact hs) hrest

/-- Core commutation: the time-major multi-symbol sweep restricted to one
symbol equals the symbol-major run over that symbol column. -/
theorem runAllFrom_getD (cfg : Config) (rows : List (List Cell)) :
    ∀ (t : ℕ) (sts : List SymState) (S : ℕ) (i : ℕ), sts.length = S →
    (∀ row ∈ rows, row.length = S) → i < S →
    (runAllFrom cfg t sts rows).getD i initState =
      runSymFrom cfg t (sts.getD i initState) (column i rows) := by
  induction rows with
  | nil => intro t sts S i _ _ _; simp [runAllFrom, column, runSymFrom]
  | cons row rest ih =>
    intro t sts S i hs h hi
    have hrow : row.length = S := h row (List.mem_cons_self _ _)
    have hrest : ∀ r ∈ rest, r.length = S :=
      fun r hr => h r (List.mem_cons_of_mem _ hr)
    have hlen : (stepRow cfg sts t row).length = S := by
      rw [stepRow_length cfg sts t row (by rw [hrow, hs])]; exact hs
    have hcol : column i (row :: rest) = row.getD i dCell :: column i rest := by
      simp [column]
    simp only [runAllFrom, hcol, runSymFrom]
    rw [ih (t + 1) _ S i hlen hrest hi]
    congr 1
    have h1 : i < sts.length := by rw [hs]; exact hi
    have h2 : i < row.length := by rw [hrow]; exact hi
    exact getD_zipWith_of_lt _ sts row i h1 h2 initState dCell initState

/-- C9: simulating each symbol column individually and merging the
per-symbol results in symbol order yields exactly the same state list,
trade log and aggregate equity table as the single-pass time-major sweep
over the whole multi-symbol table; the merge is deterministic because the
result is fixed by the inputs alone. -/
theorem parallel_merge_determinism (cfg : Config) (S : ℕ)
    (rows : List (List Cell)) (n : ℕ) (h : ∀ row ∈ rows, row.length = S) :
    runAll cfg S rows = perSymbolRun cfg S rows ∧
    mergedTrades (runAll cfg S rows) =
      mergedTrades (perSymbolRun cfg S rows) ∧
    aggregateEquity n (runAll cfg S rows) =
      aggregateEquity n (perSymbolRun cfg S rows) := by
  have hmain : runAll cfg S rows = perSymbolRun cfg S rows := by
    have hlen1 : (runAll cfg S rows).length = S :=
      runAllFrom_length cfg rows 0 (List.replicate S initState) S
        (List.length_replicate S initState) h
    have hlen2 : (perSymbolRun cfg S rows).length = S := by
      simp [perSymbolRun]
    apply List.ext_getElem (by rw [hlen1, hlen2])
    intro i h1 h2
    have hi : i < S := by rw [hlen1] at h1; exact h1
    have lhs : (runAll cfg S rows)[i] = runSym cfg (column i rows) := by
      rw [← List.getD_eq_getElem (runAll cfg S rows) initState h1]
      unfold runAll runSym
      rw [runAllFrom_getD cfg rows 0 (List.replicate S initState) S i
        (List.length_replicate S initState) h hi]
      rw [getD_replicate initState S i]
    have rhs : (perSymbolRun cfg S rows)[i] = runSym cfg (column i rows) := by
      simp [perSymbolRun]
    rw [lhs, rhs]
  exact ⟨hmain, by rw [hmain], by rw [hmain]⟩

/-- Witness for C9: a two-symbol, two-bar table simulated in one pass and
per symbol, with identical results. -/
theorem parallel_merge_determinism_witness :
    runAll scenarioConfig 2
        [[⟨100, true, false⟩, ⟨50, false, false⟩],
         [⟨110, false, true⟩, ⟨55, true, false⟩]] =
      perSymbolRun scenarioConfig 2
        [[⟨100, true, false⟩, ⟨50, false, false⟩],
         [⟨110, false, true⟩, ⟨55, true, false⟩]] :=
  (parallel_merge_determinism scenarioConfig 2
    [[⟨100, true, false⟩, ⟨50, false, false⟩],
     [⟨110, false, true⟩, ⟨55, true, false⟩]] 2 (by decide)).1

/-- Element lookup through `getD` on a replicate list with any default
returns the element at indices inside the list. -/
theorem getD_replicate_of_lt {α : Type} (a d : α) :
    ∀ (n i : ℕ), i < n → (List.replicate n a).getD i d = a := by
  intro n
  induction n with
  | zero => intro i hi; exact absurd hi (Nat.not_lt_zero i)
  | succ k ih =>
    intro i hi
    cases i with
    | zero => simp [List.replicate_succ]
    | succ j =>
      simp only [List.replicate_succ, List.getD_cons_succ]
      exact ih j (Nat.lt_of_succ_lt_succ hi)

/-- Period returns of a constant equity curve are all zero. -/
theorem periodReturns_replicate (n : ℕ) (v : ℚ) :
    periodReturns (List.replicate n v) = List.replicate (n - 1) 0 := by
  have hf : (if v = 0 then (0 : ℚ) else v / v - 1) = 0 := by
    by_cases hv : v = 0
    · simp [hv]
    · simp [hv, div_self hv]
  cases n with
  | zero => simp [periodReturns]
  | succ k =>
    simp only [periodReturns, List.replicate_succ, List.tail_cons]
    rw [show (v :: List.replicate k v) = List.replicate (k + 1) v from rfl,
      List.zipWith_replicate]
    simp [hf, Nat.min_def]

/-- The mean of a list of zeros is zero. -/
theorem meanQ_replicate_zero (k : ℕ) : meanQ (List.replicate k (0 : ℚ)) = 0 := by
  cases k with
  | zero => simp [meanQ]
  | succ j => simp [meanQ, List.sum_replicate]

/-- The variance of a list of zeros is zero. -/
theorem varianceQ_replicate_zero (k : ℕ) :
    varianceQ (List.replicate k (0 : ℚ)) = 0 := by
  have h1 : meanQ (List.replicate k (0 : ℚ)) = 0 := meanQ_replicate_zero k
  simp only [varianceQ, h1, List.map_replicate, sub_zero]
  have h2 : ((0 : ℚ)) ^ 2 = 0 := by norm_num
  rw [h2]
  exact meanQ_replicate_zero k

/-- The Sharpe ratio resolves to zero whenever the period returns have
zero variance, per the degenerate-input rule of section 4.2. -/
theorem sharpe_zero_variance (e : List ℚ) (f : ℚ)
    (h : varianceQ (periodReturns e) = 0) : sharpeRatio e f = 0 := by
  simp [sharpeRatio, h]

/-- Total return of a constant curve against its own level is zero. -/
theorem totalReturn_replicate (n : ℕ) (v : ℚ) :
    totalReturnPct (List.replicate n v) v = 0 := by
  cases n with
  | zero => simp [totalReturnPct]
  | succ k =>
    have hl : (List.replicate (k + 1) v).getLast? = some v := by
      rw [List.replicate_succ']
      exact List.getLast?_concat _
    simp only [totalReturnPct, hl]
    by_cases hv : v = 0
    · simp [hv]
    · simp [hv, div_self hv]

/-- Running maxima of a constant curve. -/
theorem runningMax_replicate (n : ℕ) (v : ℚ) :
    runningMax (List.replicate n v) = List.replicate n v := by
  induction n with
  | zero => simp [runningMax]
  | succ k ih =>
    simp [List.replicate_succ, runningMax, ih, List.map_replicate, max_self]

/-- Folding max over zeros starting at zero gives zero. -/
theorem foldl_max_zero_replicate (n : ℕ) :
    List.foldl max (0 : ℚ) (List.replicate n 0) = 0 := by
  induction n with
  | zero => simp
  | succ k ih => simp [List.replicate_succ, ih]

/-- A constant equity curve has zero max drawdown. -/
theorem maxDrawdown_replicate (n : ℕ) (v : ℚ) :
    maxDrawdownPct (List.replicate n v) = 0 := by
  simp only [maxDrawdownPct, runningMax_replicate, List.zipWith_replicate,
    min_self]
  by_cases hv : v = 0
  · simp [hv, foldl_max_zero_replicate]
  · simp [hv, div_self hv, foldl_max_zero_replicate]

/-- The aggregate of per-symbol curves that are all constant at `c` is
constant at the symbol count times `c`. -/
theorem aggregateEquity_const (n : ℕ) (sts : List SymState) (c : ℚ)
    (h : ∀ st ∈ sts, st.equity = List.replicate n c) :
    aggregateEquity n sts = List.replicate n ((sts.length : ℚ) * c) := by
  unfold aggregateEquity
  have hmap : ∀ t ∈ List.range n,
      (sts.map (fun st => st.equity.getD t 0)).sum = (sts.length : ℚ) * c := by
    intro t ht
    have htn : t < n := List.mem_range.mp ht
    have hpt : sts.map (fun st => st.equity.getD t 0) =
        sts.map (fun _ => c) := by
      apply List.map_congr_left
      intro st hst
      rw [h st hst]
      exact getD_replicate_of_lt c 0 n t htn
    rw [hpt, List.map_const', List.sum_replicate]
    simp [nsmul_eq_mul]
  calc (List.range n).map (fun t => (sts.map (fun st => st.equity.getD t 0)).sum)
      = (List.range n).map (fun _ => (sts.length : ℚ) * c) :=
        List.map_congr_left hmap
    _ = List.replicate n ((sts.length : ℚ) * c) := by
        rw [List.map_const', List.length_range]

/-- In a run whose entry matrix is everywhere false, every symbol state
ends with no trades and a constant equity curve at the initial cash. -/
theorem runAll_no_entry_states (cfg : Config) (S : ℕ)
    (rows : List (List Cell)) (hlen : ∀ row ∈ rows, row.length = S)
    (hfalse : ∀ row ∈ rows, ∀ cell ∈ row, cell.entry = false) :
    ∀ st ∈ runAll cfg S rows, st.trades = [] ∧
      st.equity = List.replicate rows.length cfg.initial_cash_per_symbol := by
  intro st hst
  have hL : (runAll cfg S rows).length = S :=
    runAllFrom_length cfg rows 0 _ S (List.length_replicate S initState) hlen
  obtain ⟨i, hilt, hig⟩ := List.mem_iff_getElem.mp hst
  have hiS : i < S := by rw [← hL]; exact hilt
  have hcol : ∀ cell ∈ column i rows, cell.entry = false := by
    intro cell hcell
    obtain ⟨row, hrow, hcelleq⟩ := List.mem_map.mp hcell
    have hrl : row.length = S := hlen row hrow
    have hilt2 : i < row.length := by rw [hrl]; exact hiS
    have hmem : row.getD i dCell ∈ row := by
      rw [List.getD_eq_getElem _ _ hilt2]
      exact List.getElem_mem hilt2
    rw [← hcelleq]
    exact hfalse row hrow _ hmem
  have hst_eq : st = runSym cfg (column i rows) := by
    rw [← hig, ← List.getD_eq_getElem _ initState hilt]
    unfold runAll runSym
    rw [runAllFrom_getD cfg rows 0 _ S i (List.length_replicate S initState)
      hlen hiS, getD_replicate initState S i]
  have hrun := runSymFrom_no_entry cfg (column i rows) 0 0 [] [] hcol
  have hcollen : (column i rows).length = rows.length := by simp [column]
  constructor
  · rw [hst_eq]
    unfold runSym initState
    rw [hrun]
  · rw [hst_eq]
    unfold runSym initState
    rw [hrun]
    simp [hcollen]

/-- C1: the five statistics are total on degenerate input with `0.0`
fallbacks: zero trades give zero win rate and expectancy, zero variance
gives zero Sharpe, an empty curve gives zero total return and drawdown;
and a run over an all-false entries matrix yields
`win_rate = expectancy = sharpe = total_return = 0` (and zero drawdown). -/
theorem metrics_zero_trade_fallback (cfg : Config) (S : ℕ)
    (rows : List (List Cell)) (freq : ℚ)
    (hlen : ∀ row ∈ rows, row.length = S)
    (hfalse : ∀ row ∈ rows, ∀ cell ∈ row, cell.entry = false) :
    winRatePct (mergedTrades (runAll cfg S rows)) = 0 ∧
    expectancy (mergedTrades (runAll cfg S rows)) = 0 ∧
    sharpeRatio (aggregateEquity rows.length (runAll cfg S rows)) freq = 0 ∧
    totalReturnPct (aggregateEquity rows.length (runAll cfg S rows))
      (cfg.initial_cash_per_symbol * (S : ℚ)) = 0 ∧
    maxDrawdownPct (aggregateEquity rows.length (runAll cfg S rows)) = 0 ∧
    winRatePct [] = 0 ∧ expectancy [] = 0 ∧
    (∀ (e : List ℚ) (f : ℚ), varianceQ (periodReturns e) = 0 →
      sharpeRatio e f = 0) ∧
    (∀ c : ℚ, totalReturnPct [] c = 0) ∧ maxDrawdownPct [] = 0 := by
  have hsts := runAll_no_entry_states cfg S rows hlen hfalse
  have hL : (runAll cfg S rows).length = S :=
    runAllFrom_length cfg rows 0 _ S (List.length_replicate S initState) hlen
  have htr : mergedTrades (runAll cfg S rows) = [] := by
    unfold mergedTrades
    rw [List.flatten_eq_nil_iff]
    intro x hx
    obtain ⟨st, hst, hxeq⟩ := List.mem_map.mp hx
    rw [← hxeq]
    exact (hsts st hst).1
  have hagg : aggregateEquity rows.length (runAll cfg S rows) =
      List.replicate rows.length ((S : ℚ) * cfg.initial_cash_per_symbol) := by
    rw [aggregateEquity_const rows.length _ _ (fun st hst => (hsts st hst).2),
      hL]
  refine ⟨?_, ?_, ?_, ?_, ?_, by simp [winRatePct], by simp [expectancy],
    fun e f h => sharpe_zero_variance e f h,
    fun c => by simp [totalReturnPct], by simp [maxDrawdownPct, runningMax]⟩
  · rw [htr]
    simp [winRatePct]
  · rw [htr]
    simp [expectancy]
  · exact sharpe_zero_variance _ freq
      (by rw [hagg, periodReturns_replicate]; exact varianceQ_replicate_zero _)
  · rw [hagg, mul_comm cfg.initial_cash_per_symbol (S : ℚ)]
    exact totalReturn_replicate _ _
  · rw [hagg]
    exact maxDrawdown_replicate _ _

/-- Witness for C1 on a concrete two-symbol, two-bar all-false entries
matrix under the scenario configuration. -/
theorem metrics_zero_trade_fallback_witness :
    winRatePct (mergedTrades (runAll scenarioConfig 2
      [[⟨100, false, false⟩, ⟨50, false, false⟩],
       [⟨110, false, false⟩, ⟨55, false, true⟩]])) = 0 ∧
    expectancy (mergedTrades (runAll scenarioConfig 2
      [[⟨100, false, false⟩, ⟨50, false, false⟩],
       [⟨110, false, false⟩, ⟨55, false, true⟩]])) = 0 ∧
    sharpeRatio (aggregateEquity 2 (runAll scenarioConfig 2
      [[⟨100, false, false⟩, ⟨50, false, false⟩],
       [⟨110, false, false⟩, ⟨55, false, true⟩]])) 252 = 0 ∧
    totalReturnPct (aggregateEquity 2 (runAll scenarioConfig 2
      [[⟨100, false, false⟩, ⟨50, false, false⟩],
       [⟨110, false, false⟩, ⟨55, false, true⟩]]))
      (scenarioConfig.initial_cash_per_symbol * ((2 : ℕ) : ℚ)) = 0 := by
  have h := metrics_zero_trade_fallback scenarioConfig 2
    [[⟨100, false, false⟩, ⟨50, false, false⟩],
     [⟨110, false, false⟩, ⟨55, false, true⟩]] 252
    (by decide) (by decide)
  exact ⟨h.1, h.2.1, h.2.2.1, h.2.2.2.1⟩

/-- C2 counterexample: in the source, SMACrossoverStrategy.generate_signals
filters the close table to symbols with at least `slow_window` non-NaN
closes, so a symbol with fewer bars than the warm-up period is removed
from the universe before simulation rather than kept with all-false
entries: with `slow_window = 3`, symbol B (one non-NaN bar) is dropped
from the filtered columns and hence from every later equity column. -/
theorem sma_short_symbol_dropped :
    shortSymbolCols.map Prod.fst = ["A", "B"] ∧
    ((shortSymbolCols.getD 1 ("", [])).2.filter (fun v => v.isSome)).length
      < 3 ∧
    smaValidSymbols shortSymbolCols 3 = ["A"] := by
  decide

/-- C2 amended: every symbol present in the signal domain handed to the
engine is kept: the run has one output state per symbol, and a symbol
whose entries are all false contributes zero trades and a flat equity
line at `initial_cash_per_symbol` for its entire history to the equity
table (SMACrossoverStrategy, however, removes symbols with fewer than
`slow_window` non-NaN closes before the engine ever sees them). -/
theorem engine_keeps_all_false_symbol (cfg : Config) (S : ℕ)
    (rows : List (List Cell)) (i : ℕ) (hlen : ∀ row ∈ rows, row.length = S)
    (hi : i < S) (hfalse : ∀ row ∈ rows, (row.getD i dCell).entry = false) :
    (runAll cfg S rows).length = S ∧
    ((runAll cfg S rows).getD i initState).trades = [] ∧
    ((runAll cfg S rows).getD i initState).equity =
      List.replicate rows.length cfg.initial_cash_per_symbol ∧
    ∀ t < rows.length,
      ((runAll cfg S rows).getD i initState).equity.getD t 0 =
        cfg.initial_cash_per_symbol := by
  have hL : (runAll cfg S rows).length = S :=
    runAllFrom_length cfg rows 0 _ S (List.length_replicate S initState) hlen
  have hcol : ∀ cell ∈ column i rows, cell.entry = false := by
    intro cell hcell
    obtain ⟨row, hrow, hcelleq⟩ := List.mem_map.mp hcell
    rw [← hcelleq]
    exact hfalse row hrow
  have hgd : (runAll cfg S rows).getD i initState =
      runSym cfg (column i rows) := by
    unfold runAll runSym
    rw [runAllFrom_getD cfg rows 0 _ S i (List.length_replicate S initState)
      hlen hi, getD_replicate initState S i]
  have hrun := runSymFrom_no_entry cfg (column i rows) 0 0 [] [] hcol
  have hcollen : (column i rows).length = rows.length := by simp [column]
  have htr : ((runAll cfg S rows).getD i initState).trades = [] := by
    rw [hgd]
    unfold runSym initState
    rw [hrun]
  have heq : ((runAll cfg S rows).getD i initState).equity =
      List.replicate rows.length cfg.initial_cash_per_symbol := by
    rw [hgd]
    unfold runSym initState
    rw [hrun]
    simp [hcollen]
  refine ⟨hL, htr, heq, ?_⟩
  intro t ht
  rw [heq]
  exact getD_replicate_of_lt cfg.initial_cash_per_symbol 0 rows.length t ht

/-- Witness for the amended C2: a one-bar, two-symbol run in which symbol
1 has no entry signal; the output keeps both symbols and gives symbol 1 a
flat equity line at cash 10. -/
theorem engine_keeps_all_false_symbol_witness :
    (runAll scenarioConfig 2 [[⟨100, true, false⟩, ⟨50, false, false⟩]]).length
      = 2 ∧
    ((runAll scenarioConfig 2
      [[⟨100, true, false⟩, ⟨50, false, false⟩]]).getD 1 initState).trades
      = [] ∧
    ((runAll scenarioConfig 2
      [[⟨100, true, false⟩, ⟨50, false, false⟩]]).getD 1 initState).equity
      = List.replicate 1 10 := by
  have h := engine_keeps_all_false_symbol scenarioConfig 2
    [[⟨100, true, false⟩, ⟨50, false, false⟩]] 1 (by decide) (by decide)
    (by decide)
  exact ⟨h.1, h.2.1, h.2.2.1⟩

/-- Full evaluation of the end-to-end scenario run: one trade opened at
bar 0 (fill 100.11, units 1000/10011) and closed at bar 4
(fill 119.868), net pnl 3256337/1668500, mark-to-market equity on bars
0 to 3 and final equity 10 plus the net pnl. -/
theorem scenario_run_eval :
    runSym scenarioConfig scenarioColumn =
      ⟨Position.flat, 3256337 / 1668500,
        [⟨0, 10011 / 100, 4, 29967 / 250, 1000 / 10011, 6586 / 3337,
          3256337 / 1668500, 3256337 / 166850⟩],
        [100000 / 10011, 35000 / 3337, 95000 / 10011, 110000 / 10011,
          19941337 / 1668500]⟩ := by
  simp only [runSym, runSymFrom, stepCell, timeStop, closeTrade,
    scenarioConfig, scenarioColumn, initState, Position.flat]
  norm_num

/-- C3 counterexample: in the end-to-end scenario the realized net pnl of
the single trade is greater than 1.9515 (its exact value is
3256337/1668500, about 1.9517), so it exceeds the claimed value 1.945 by
more than 0.0065 and rounds to 1.952, not 1.945; likewise the final
equity exceeds 11.9515 rather than being 11.945. -/
theorem scenario_netpnl_exceeds_claimed :
    (runSym scenarioConfig scenarioColumn).trades.length = 1 ∧
    19515 / 10000 <
      ((runSym scenarioConfig scenarioColumn).trades.getD 0 dTrade).netPnl ∧
    65 / 10000 <
      ((runSym scenarioConfig scenarioColumn).trades.getD 0 dTrade).netPnl
        - 1945 / 1000 ∧
    119515 / 10000 < (runSym scenarioConfig scenarioColumn).equity.getD 4 0 := by
  rw [scenario_run_eval]
  refine ⟨rfl, ?_, ?_, ?_⟩ <;> norm_num

/-- C3 amended: the scenario produces exactly one trade, opened at bar 0
at fill 100*1.0011 = 100.11 with units 10/100.11, closed at bar 4 at fill
120*0.9989 = 119.868, with
`net_pnl = units*fill_exit*(1-fee) - units*fill_entry*(1+fee)`, which is
approximately 1.952 (not 1.945); the equity curve marks the open position
to market (`units * close[t]`) during bars 0 to 3 and equals
`10 + net_pnl`, approximately 11.952, at bar 4. -/
theorem scenario_end_to_end :
    (runSym scenarioConfig scenarioColumn).trades.length = 1 ∧
    ((runSym scenarioConfig scenarioColumn).trades.getD 0 dTrade).entryTime
      = 0 ∧
    ((runSym scenarioConfig scenarioColumn).trades.getD 0 dTrade).entryPrice
      = 10011 / 100 ∧
    ((runSym scenarioConfig scenarioColumn).trades.getD 0 dTrade).units
      = 1000 / 10011 ∧
    ((runSym scenarioConfig scenarioColumn).trades.getD 0 dTrade).exitTime
      = 4 ∧
    ((runSym scenarioConfig scenarioColumn).trades.getD 0 dTrade).exitPrice
      = 29967 / 250 ∧
    ((runSym scenarioConfig scenarioColumn).trades.getD 0 dTrade).netPnl
      = (1000 / 10011) * (29967 / 250) * (1 - 1 / 1000)
        - (1000 / 10011) * (10011 / 100) * (1 + 1 / 1000) ∧
    (runSym scenarioConfig scenarioColumn).equity
      = [(1000 / 10011) * 100, (1000 / 10011) * 105, (1000 / 10011) * 95,
         (1000 / 10011) * 110,
         10 + ((runSym scenarioConfig scenarioColumn).trades.getD 0
           dTrade).netPnl] ∧
    19515 / 10000 <
      ((runSym scenarioConfig scenarioColumn).trades.getD 0 dTrade).netPnl ∧
    ((runSym scenarioConfig scenarioColumn).trades.getD 0 dTrade).netPnl
      < 19525 / 10000 ∧
    119515 / 10000 <
      (runSym scenarioConfig scenarioColumn).equity.getD 4 0 ∧
    (runSym scenarioConfig scenarioColumn).equity.getD 4 0
      < 119525 / 10000 := by
  rw [scenario_run_eval]
  refine ⟨rfl, rfl, ?_, ?_, rfl, ?_, ?_, ?_, ?_, ?_, ?_, ?_⟩ <;> norm_num

/-- From an open position, processing bars with no exit signal until the
holding count reaches the cap closes the position by time stop exactly at
the last processed bar, emitting one trade that keeps the entry time of
the position actually opened. -/
theorem runSymFrom_time_stop (cfg : Config) (m : ℕ)
    (hm : cfg.max_holding_bars = some m) :
    ∀ (cells : List Cell) (t : ℕ) (st : SymState), st.pos.isOpen = true →
    (∀ cell ∈ cells, cell.exitSig = false) →
    st.pos.barsHeld + cells.length = m + 1 → st.pos.barsHeld ≤ m →
    (runSymFrom cfg t st cells).trades.length = st.trades.length + 1 ∧
    ((runSymFrom cfg t st cells).trades.getD st.trades.length dTrade).entryTime
      = st.pos.entryTime ∧
    ((runSymFrom cfg t st cells).trades.getD st.trades.length dTrade).exitTime
      = t + cells.length - 1 ∧
    (runSymFrom cfg t st cells).pos = Position.flat := by
  intro cells
  induction cells with
  | nil =>
    intro t st _ _ hcount hle
    simp only [List.length_nil, Nat.add_zero] at hcount
    omega
  | cons cell rest ih =>
    intro t st hopen hexits hcount hle
    have hexit0 : cell.exitSig = false := hexits cell (List.mem_cons_self _ _)
    have hexitr : ∀ c ∈ rest, c.exitSig = false :=
      fun c hc => hexits c (List.mem_cons_of_mem _ hc)
    by_cases hbars : st.pos.barsHeld = m
    · have hrest : rest = [] := by
        have : rest.length = 0 := by
          simp only [List.length_cons] at hcount
          omega
        exact List.length_eq_zero.mp this
      have hstep : stepCell cfg st t cell =
          ⟨Position.flat,
            st.realized + (closeTrade cfg st.pos t cell.close).netPnl,
            st.trades ++ [closeTrade cfg st.pos t cell.close],
            st.equity ++ [cfg.initial_cash_per_symbol +
              (st.realized + (closeTrade cfg st.pos t cell.close).netPnl)]⟩ := by
        simp [stepCell, hopen, hexit0, timeStop, hm, hbars]
      simp only [runSymFrom, hstep, hrest]
      refine ⟨by simp, ?_, ?_, by simp⟩
      · rw [List.getD_eq_getElem _ dTrade (by simp), List.getElem_concat_length]
        · rfl
        · rfl
      · rw [List.getD_eq_getElem _ dTrade (by simp), List.getElem_concat_length]
        · simp [closeTrade]
        · rfl
    · have hlt : st.pos.barsHeld < m := Nat.lt_of_le_of_ne hle hbars
      have hstep : stepCell cfg st t cell =
          ⟨{ st.pos with barsHeld := st.pos.barsHeld + 1 }, st.realized,
            st.trades, st.equity ++ [st.realized + st.pos.units * cell.close]⟩ := by
        simp [stepCell, hopen, hexit0, timeStop, hm, Nat.not_le.mpr hlt]
      have hres := ih (t + 1)
        ⟨{ st.pos with barsHeld := st.pos.barsHeld + 1 }, st.realized,
          st.trades, st.equity ++ [st.realized + st.pos.units * cell.close]⟩
        (by simpa using hopen) hexitr
        (by simp only [List.length_cons] at hcount; simp; omega)
        (by simp; omega)
      simp only [runSymFrom, hstep]
      refine ⟨hres.1, ?_, ?_, hres.2.2.2⟩
      · simpa using hres.2.1
      · rw [hres.2.2.1]
        simp only [List.length_cons]
        omega

/-- C5: while LONG at bar t under `max_holding_bars = m`, the position is
closed (emitting the realized trade) exactly when the exit signal is true
at t or the holding count has reached m; consequently a position opened
at bar 0 with no exit signal anywhere is force-closed by the time stop,
with the trade recording the entry at the bar actually opened (bar 0) and
the time-stop exit m+1 bars later. -/
theorem max_holding_forces_exit :
    (∀ (cfg : Config) (m : ℕ) (st : SymState) (t : ℕ) (cell : Cell),
      cfg.max_holding_bars = some m → st.pos.isOpen = true →
      (((stepCell cfg st t cell).pos.isOpen = false) ↔
        (cell.exitSig = true ∨ m ≤ st.pos.barsHeld)) ∧
      ((cell.exitSig = true ∨ m ≤ st.pos.barsHeld) →
        (stepCell cfg st t cell).trades =
          st.trades ++ [closeTrade cfg st.pos t cell.close])) ∧
    (∀ (cfg : Config) (m : ℕ) (c0 : ℚ) (rest : List Cell),
      cfg.max_holding_bars = some m →
      (∀ cell ∈ rest, cell.exitSig = false) → rest.length = m + 1 →
      (runSym cfg (⟨c0, true, false⟩ :: rest)).trades.length = 1 ∧
      ((runSym cfg (⟨c0, true, false⟩ :: rest)).trades.getD 0
        dTrade).entryTime = 0 ∧
      ((runSym cfg (⟨c0, true, false⟩ :: rest)).trades.getD 0
        dTrade).exitTime = m + 1) := by
  constructor
  · intro cfg m st t cell hm hopen
    have hcond : (cell.exitSig || timeStop cfg st.pos) = true ↔
        (cell.exitSig = true ∨ m ≤ st.pos.barsHeld) := by
      simp [timeStop, hm]
    constructor
    · by_cases hb : (cell.exitSig || timeStop cfg st.pos) = true
      · have hpos : (stepCell cfg st t cell).pos = Position.flat := by
          simp only [stepCell, hopen, hb]
          simp
        exact iff_of_true (by simp [hpos, Position.flat]) (hcond.mp hb)
      · have hb' : (cell.exitSig || timeStop cfg st.pos) = false := by
          revert hb
          cases (cell.exitSig || timeStop cfg st.pos) <;> simp
        have hpos : (stepCell cfg st t cell).pos.isOpen = true := by
          simp [stepCell, hopen, hb', Position.isOpen]
        exact iff_of_false (by simp [hpos]) (fun hc => hb (hcond.mpr hc))
    · intro hc
      have hb := hcond.mpr hc
      simp [stepCell, hopen, hb]
  · intro cfg m c0 rest hm hexits hlen
    have hopen1 : (stepCell cfg initState 0 ⟨c0, true, false⟩).pos.isOpen
        = true := by
      simp [stepCell, initState, Position.flat]
    have hbars1 : (stepCell cfg initState 0 ⟨c0, true, false⟩).pos.barsHeld
        = 0 := by
      simp [stepCell, initState, Position.flat]
    have hentry1 : (stepCell cfg initState 0 ⟨c0, true, false⟩).pos.entryTime
        = 0 := by
      simp [stepCell, initState, Position.flat]
    have htr1 : (stepCell cfg initState 0 ⟨c0, true, false⟩).trades = [] := by
      simp [stepCell, initState, Position.flat]
    have hres := runSymFrom_time_stop cfg m hm rest 1
      (stepCell cfg initState 0 ⟨c0, true, false⟩) hopen1 hexits
      (by rw [hbars1, hlen]; omega) (by rw [hbars1]; exact Nat.zero_le m)
    have hshow : runSym cfg (⟨c0, true, false⟩ :: rest) =
        runSymFrom cfg 1 (stepCell cfg initState 0 ⟨c0, true, false⟩) rest :=
      rfl
    rw [hshow]
    refine ⟨?_, ?_, ?_⟩
    · rw [hres.1, htr1]
      rfl
    · have := hres.2.1
      rw [htr1] at this
      simpa [hentry1] using this
    · have := hres.2.2.1
      rw [htr1] at this
      simp only [List.length_nil] at this
      rw [this, hlen]
      omega

/-- Witness for C5: with a cap of 2 bars, a LONG state held for 2 bars is
closed by the time stop with no exit signal, and a 4-bar run (entry at
bar 0, never an exit signal) realizes exactly one trade. -/
theorem max_holding_forces_exit_witness :
    (stepCell (⟨10, 0, 0, some 2⟩ : Config)
      (⟨⟨true, 0, 100, 1, 2⟩, 0, [], []⟩ : SymState) 3
      ⟨50, false, false⟩).pos.isOpen = false ∧
    (stepCell (⟨10, 0, 0, some 2⟩ : Config)
      (⟨⟨true, 0, 100, 1, 2⟩, 0, [], []⟩ : SymState) 3
      ⟨50, false, false⟩).trades =
      [] ++ [closeTrade (⟨10, 0, 0, some 2⟩ : Config) ⟨true, 0, 100, 1, 2⟩
        3 50] ∧
    (runSym (⟨10, 0, 0, some 2⟩ : Config)
      [⟨100, true, false⟩, ⟨101, false, false⟩, ⟨102, false, false⟩,
       ⟨103, false, false⟩]).trades.length = 1 :=
  ⟨((max_holding_forces_exit.1 (⟨10, 0, 0, some 2⟩ : Config)  2
      (⟨⟨true, 0, 100, 1, 2⟩, 0, [], []⟩ : SymState) 3
      ⟨50, false, false⟩ rfl rfl).1).mpr (Or.inr (by decide)),
   (max_holding_forces_exit.1 (⟨10, 0, 0, some 2⟩ : Config) 2
      (⟨⟨true, 0, 100, 1, 2⟩, 0, [], []⟩ : SymState) 3
      ⟨50, false, false⟩ rfl rfl).2 (Or.inr (by decide)),
   (max_holding_forces_exit.2 (⟨10, 0, 0, some 2⟩ : Config) 2 100
      [⟨101, false, false⟩, ⟨102, false, false⟩, ⟨103, false, false⟩]
      rfl (by decide) (by decide)).1⟩

/-- One step of the state machine preserves the run invariant: under a
nonnegative close and a slippage rate in `[0,1]`, units and fill prices
stay nonnegative and every emitted trade satisfies the closing pnl
formula over its own fields. -/
theorem goodState_step (cfg : Config) (hslip0 : 0 ≤ cfg.slippage_rate)
    (hslip1 : cfg.slippage_rate ≤ 1) (hcash : 0 ≤ cfg.initial_cash_per_symbol)
    (st : SymState) (t : ℕ) (cell : Cell) (hc : 0 ≤ cell.close)
    (h : goodState cfg.fee_rate st) :
    goodState cfg.fee_rate (stepCell cfg st t cell) := by
  obtain ⟨hu, hp, htr⟩ := h
  by_cases ho : st.pos.isOpen = true
  · by_cases hcl : (cell.exitSig || timeStop cfg st.pos) = true
    · have hstep : stepCell cfg st t cell =
          ⟨Position.flat,
            st.realized + (closeTrade cfg st.pos t cell.close).netPnl,
            st.trades ++ [closeTrade cfg st.pos t cell.close],
            st.equity ++ [cfg.initial_cash_per_symbol +
              (st.realized + (closeTrade cfg st.pos t cell.close).netPnl)]⟩ := by
        simp [stepCell, ho, hcl]
      rw [hstep]
      refine ⟨le_refl 0, le_refl 0, ?_⟩
      intro tr htrm
      rcases List.mem_append.mp htrm with hmem | hmem
      · exact htr tr hmem
      · have heq : tr = closeTrade cfg st.pos t cell.close :=
          List.mem_singleton.mp hmem
        subst heq
        refine ⟨rfl, hu, hp, ?_⟩
        exact mul_nonneg hc (by linarith)
    · have hb' : (cell.exitSig || timeStop cfg st.pos) = false := by
        revert hcl
        cases (cell.exitSig || timeStop cfg st.pos) <;> simp
      have hstep : stepCell cfg st t cell =
          ⟨{ st.pos with barsHeld := st.pos.barsHeld + 1 }, st.realized,
            st.trades,
            st.equity ++ [st.realized + st.pos.units * cell.close]⟩ := by
        simp [stepCell, ho, hb']
      rw [hstep]
      exact ⟨hu, hp, htr⟩
  · have ho' : st.pos.isOpen = false := by
      revert ho
      cases st.pos.isOpen <;> simp
    by_cases he : cell.entry = true
    · have hstep : stepCell cfg st t cell =
          ⟨⟨true, t, cell.close * (1 + cfg.slippage_rate),
            cfg.initial_cash_per_symbol /
              (cell.close * (1 + cfg.slippage_rate)), 0⟩, st.realized,
            st.trades,
            st.equity ++ [st.realized + cfg.initial_cash_per_symbol /
              (cell.close * (1 + cfg.slippage_rate)) * cell.close]⟩ := by
        simp [stepCell, ho', he]
      rw [hstep]
      have hfill : 0 ≤ cell.close * (1 + cfg.slippage_rate) :=
        mul_nonneg hc (by linarith)
      exact ⟨div_nonneg hcash hfill, hfill, htr⟩
    · have he' : cell.entry = false := by
        revert he
        cases cell.entry <;> simp
      have hstep : stepCell cfg st t cell =
          ⟨st.pos, st.realized, st.trades,
            st.equity ++ [cfg.initial_cash_per_symbol + st.realized]⟩ := by
        simp [stepCell, ho', he']
      rw [hstep]
      exact ⟨hu, hp, htr⟩

/-- The run invariant holds at the end of any run over nonnegative
closes that starts in a good state. -/
theorem goodState_run (cfg : Config) (hslip0 : 0 ≤ cfg.slippage_rate)
    (hslip1 : cfg.slippage_rate ≤ 1)
    (hcash : 0 ≤ cfg.initial_cash_per_symbol) (col : List Cell) :
    ∀ (t : ℕ) (st : SymState), (∀ cell ∈ col, 0 ≤ cell.close) →
    goodState cfg.fee_rate st → goodState cfg.fee_rate (runSymFrom cfg t st col) := by
  induction col with
  | nil => intro t st _ h; exact h
  | cons cell rest ih =>
    intro t st hc h
    have hc0 : 0 ≤ cell.close := hc cell (List.mem_cons_self _ _)
    have hcr : ∀ c ∈ rest, 0 ≤ c.close :=
      fun c hcm => hc c (List.mem_cons_of_mem _ hcm)
    exact ih (t + 1) _ hcr (goodState_step cfg hslip0 hslip1 hcash st t cell hc0 h)

/-- Fee parametricity: two runs over the same column that differ only in
the fee rate visit the same positions and emit trades with the same
fee-independent cores (times, fills and units); only the recorded pnl
differs. -/
theorem fee_parametric (cfg : Config) (f1 f2 : ℚ) (col : List Cell) :
    ∀ (t : ℕ) (st1 st2 : SymState), st1.pos = st2.pos →
    st1.trades.map tradeCore = st2.trades.map tradeCore →
    (runSymFrom { cfg with fee_rate := f1 } t st1 col).pos =
      (runSymFrom { cfg with fee_rate := f2 } t st2 col).pos ∧
    (runSymFrom { cfg with fee_rate := f1 } t st1 col).trades.map tradeCore =
      (runSymFrom { cfg with fee_rate := f2 } t st2 col).trades.map tradeCore := by
  induction col with
  | nil => intro t st1 st2 hpos htr; exact ⟨hpos, htr⟩
  | cons cell rest ih =>
    intro t st1 st2 hpos htr
    have hts : timeStop { cfg with fee_rate := f1 } st1.pos =
        timeStop { cfg with fee_rate := f2 } st2.pos := by
      rw [hpos]
      rfl
    simp only [runSymFrom]
    have hrel : (stepCell { cfg with fee_rate := f1 } st1 t cell).pos =
        (stepCell { cfg with fee_rate := f2 } st2 t cell).pos ∧
        (stepCell { cfg with fee_rate := f1 } st1 t cell).trades.map tradeCore =
        (stepCell { cfg with fee_rate := f2 } st2 t cell).trades.map
          tradeCore := by
      by_cases ho : st1.pos.isOpen = true
      · have ho2 : st2.pos.isOpen = true := by rw [← hpos]; exact ho
        by_cases hcl : (cell.exitSig || timeStop { cfg with fee_rate := f1 }
            st1.pos) = true
        · have hcl2 : (cell.exitSig || timeStop { cfg with fee_rate := f2 }
              st2.pos) = true := by rw [← hts]; exact hcl
          have h1 : stepCell { cfg with fee_rate := f1 } st1 t cell =
              ⟨Position.flat, st1.realized +
                (closeTrade { cfg with fee_rate := f1 } st1.pos t
                  cell.close).netPnl,
                st1.trades ++ [closeTrade { cfg with fee_rate := f1 } st1.pos t
                  cell.close],
                st1.equity ++ [cfg.initial_cash_per_symbol + (st1.realized +
                  (closeTrade { cfg with fee_rate := f1 } st1.pos t
                    cell.close).netPnl)]⟩ := by
            simp [stepCell, ho, hcl]
          have h2 : stepCell { cfg with fee_rate := f2 } st2 t cell =
              ⟨Position.flat, st2.realized +
                (closeTrade { cfg with fee_rate := f2 } st2.pos t
                  cell.close).netPnl,
                st2.trades ++ [closeTrade { cfg with fee_rate := f2 } st2.pos t
                  cell.close],
                st2.equity ++ [cfg.initial_cash_per_symbol + (st2.realized +
                  (closeTrade { cfg with fee_rate := f2 } st2.pos t
                    cell.close).netPnl)]⟩ := by
            simp [stepCell, ho2, hcl2]
          rw [h1, h2]
          refine ⟨rfl, ?_⟩
          simp only [List.map_append, htr]
          simp [closeTrade, tradeCore, hpos]
        · have hcl' : (cell.exitSig || timeStop { cfg with fee_rate := f1 }
              st1.pos) = false := by
            revert hcl
            cases (cell.exitSig || timeStop { cfg with fee_rate := f1 } st1.pos)
              <;> simp
          have hcl2 : (cell.exitSig || timeStop { cfg with fee_rate := f2 }
              st2.pos) = false := by rw [← hts]; exact hcl'
          have h1 : stepCell { cfg with fee_rate := f1 } st1 t cell =
              ⟨{ st1.pos with barsHeld := st1.pos.barsHeld + 1 }, st1.realized,
                st1.trades,
                st1.equity ++ [st1.realized + st1.pos.units * cell.close]⟩ := by
            simp [stepCell, ho, hcl']
          have h2 : stepCell { cfg with fee_rate := f2 } st2 t cell =
              ⟨{ st2.pos with barsHeld := st2.pos.barsHeld + 1 }, st2.realized,
                st2.trades,
                st2.equity ++ [st2.realized + st2.pos.units * cell.close]⟩ := by
            simp [stepCell, ho2, hcl2]
          rw [h1, h2]
          exact ⟨by rw [hpos], htr⟩
      · have ho' : st1.pos.isOpen = false := by
          revert ho
          cases st1.pos.isOpen <;> simp
        have ho2 : st2.pos.isOpen = false := by rw [← hpos]; exact ho'
        by_cases he : cell.entry = true
        · have h1 : stepCell { cfg with fee_rate := f1 } st1 t cell =
              ⟨⟨true, t, cell.close * (1 + cfg.slippage_rate),
                cfg.initial_cash_per_symbol /
                  (cell.close * (1 + cfg.slippage_rate)), 0⟩, st1.realized,
                st1.trades, st1.equity ++ [st1.realized +
                  cfg.initial_cash_per_symbol /
                    (cell.close * (1 + cfg.slippage_rate)) * cell.close]⟩ := by
            simp [stepCell, ho', he]
          have h2 : stepCell { cfg with fee_rate := f2 } st2 t cell =
              ⟨⟨true, t, cell.close * (1 + cfg.slippage_rate),
                cfg.initial_cash_per_symbol /
                  (cell.close * (1 + cfg.slippage_rate)), 0⟩, st2.realized,
                st2.trades, st2.equity ++ [st2.realized +
                  cfg.initial_cash_per_symbol /
                    (cell.close * (1 + cfg.slippage_rate)) * cell.close]⟩ := by
            simp [stepCell, ho2, he]
          rw [h1, h2]
          exact ⟨rfl, htr⟩
        · have he' : cell.entry = false := by
            revert he
            cases cell.entry <;> simp
          have h1 : stepCell { cfg with fee_rate := f1 } st1 t cell =
              ⟨st1.pos, st1.realized, st1.trades,
                st1.equity ++ [cfg.initial_cash_per_symbol + st1.realized]⟩ := by
            simp [stepCell, ho', he']
          have h2 : stepCell { cfg with fee_rate := f2 } st2 t cell =
              ⟨st2.pos, st2.realized, st2.trades,
                st2.equity ++ [cfg.initial_cash_per_symbol + st2.realized]⟩ := by
            simp [stepCell, ho2, he']
          rw [h1, h2]
          exact ⟨hpos, htr⟩
    exact ih (t + 1) _ _ hrel.1 hrel.2

/-- C8: raising the fee rate, with signals, prices, slippage and cash
held constant, never increases the net pnl of any individual trade: the
two runs emit corresponding trades with identical times, fills and units,
and the higher fee gives pointwise smaller (or equal) net pnl. -/
theorem fee_monotonicity (cfg : Config) (f1 f2 : ℚ) (col : List Cell)
    (hf0 : 0 ≤ f1) (hf12 : f1 ≤ f2) (hf2 : f2 < 1)
    (hslip0 : 0 ≤ cfg.slippage_rate) (hslip1 : cfg.slippage_rate < 1)
    (hcash : 0 ≤ cfg.initial_cash_per_symbol)
    (hcloses : ∀ cell ∈ col, 0 ≤ cell.close) (i : ℕ)
    (hi : i < (runSym { cfg with fee_rate := f2 } col).trades.length) :
    ((runSym { cfg with fee_rate := f2 } col).trades.getD i dTrade).netPnl ≤
      ((runSym { cfg with fee_rate := f1 } col).trades.getD i dTrade).netPnl := by
  have hinit : ∀ f : ℚ, goodState f initState := by
    intro f
    refine ⟨le_refl 0, le_refl 0, ?_⟩
    intro tr htrm
    simp [initState] at htrm
  have hgood1 : goodState f1 (runSym { cfg with fee_rate := f1 } col) :=
    goodState_run { cfg with fee_rate := f1 } hslip0 (le_of_lt hslip1) hcash
      col 0 initState hcloses (hinit f1)
  have hgood2 : goodState f2 (runSym { cfg with fee_rate := f2 } col) :=
    goodState_run { cfg with fee_rate := f2 } hslip0 (le_of_lt hslip1) hcash
      col 0 initState hcloses (hinit f2)
  have hpar := fee_parametric cfg f1 f2 col 0 initState initState rfl rfl
  have hcore : (runSym { cfg with fee_rate := f1 } col).trades.map tradeCore =
      (runSym { cfg with fee_rate := f2 } col).trades.map tradeCore := hpar.2
  have hlen : (runSym { cfg with fee_rate := f1 } col).trades.length =
      (runSym { cfg with fee_rate := f2 } col).trades.length := by
    have := congrArg List.length hcore
    simpa using this
  have hi1 : i < (runSym { cfg with fee_rate := f1 } col).trades.length := by
    rw [hlen]; exact hi
  have hmem1 : (runSym { cfg with fee_rate := f1 } col).trades.getD i dTrade ∈
      (runSym { cfg with fee_rate := f1 } col).trades := by
    rw [List.getD_eq_getElem _ dTrade hi1]
    exact List.getElem_mem hi1
  have hmem2 : (runSym { cfg with fee_rate := f2 } col).trades.getD i dTrade ∈
      (runSym { cfg with fee_rate := f2 } col).trades := by
    rw [List.getD_eq_getElem _ dTrade hi]
    exact List.getElem_mem hi
  have hci : tradeCore
      ((runSym { cfg with fee_rate := f1 } col).trades.getD i dTrade) =
      tradeCore
      ((runSym { cfg with fee_rate := f2 } col).trades.getD i dTrade) := by
    rw [← List.getD_map (runSym { cfg with fee_rate := f1 } col).trades dTrade
      tradeCore,
      ← List.getD_map (runSym { cfg with fee_rate := f2 } col).trades dTrade
      tradeCore, hcore]
  have hg1 := hgood1.2.2 _ hmem1
  have hg2 := hgood2.2.2 _ hmem2
  obtain ⟨hpnl1, hu1, hen1, hex1⟩ := hg1
  obtain ⟨hpnl2, hu2, hen2, hex2⟩ := hg2
  simp only [tradeCore, Prod.mk.injEq] at hci
  obtain ⟨_, hen, _, hex, hun⟩ := hci
  rw [hpnl1, hpnl2, ← hen, ← hex, ← hun]
  nlinarith [mul_nonneg (mul_nonneg hu1
    (add_nonneg hex1 hen1)) (sub_nonneg.mpr hf12)]

/-- Witness for C8: doubling the fee rate from 0.001 to 0.002 on a
two-bar round trip does not increase the net pnl of the trade. -/
theorem fee_monotonicity_witness :
    ((runSym { scenarioConfig with fee_rate := 2 / 1000 }
        [⟨100, true, false⟩, ⟨110, false, true⟩]).trades.getD 0
      dTrade).netPnl ≤
    ((runSym { scenarioConfig with fee_rate := 1 / 1000 }
        [⟨100, true, false⟩, ⟨110, false, true⟩]).trades.getD 0
      dTrade).netPnl :=
  fee_monotonicity scenarioConfig (1 / 1000) (2 / 1000)
    [⟨100, true, false⟩, ⟨110, false, true⟩]
    (by norm_num) (by norm_num) (by norm_num)
    (by norm_num [scenarioConfig]) (by norm_num [scenarioConfig])
    (by norm_num [scenarioConfig])
    (by intro cell hcell; fin_cases hcell <;> norm_num) 0
    (by simp [runSym, runSymFrom, stepCell, timeStop, closeTrade,
      scenarioConfig, initState, Position.flat])

/-- C10: constructing SMACrossoverStrategy with `fast_window >= slow_window`
raises ValueError before any signal generation or backtest runs, while
`fast_window < slow_window` succeeds and stores both windows unchanged
(with signals and portfolio still unset). -/
theorem sma_init_window_check (fast slow : ℕ) :
    (slow ≤ fast → smaCrossoverInit fast slow = Except.error ValueError.mk) ∧
    (fast < slow →
      smaCrossoverInit fast slow = Except.ok ⟨fast, slow, none, none⟩) := by
  constructor <;> intro h
  · simp [smaCrossoverInit, h]
  · simp [smaCrossoverInit, not_le.mpr h]

/-- Witness for C10 at fast = 10, slow = 10 (rejected) and fast = 10,
slow = 50 (accepted with fields unchanged). -/
theorem sma_init_window_check_witness :
    smaCrossoverInit 10 10 = Except.error ValueError.mk ∧
    smaCrossoverInit 10 50 = Except.ok ⟨10, 50, none, none⟩ :=
  ⟨(sma_init_window_check 10 10).1 (by decide),
   (sma_init_window_check 10 50).2 (by decide)⟩

/-- C4: any configuration violating the preconditions (fee or slippage
rate outside `[0,1)`, nonpositive initial cash, or signal tables whose
time-by-symbol domain differs from the bar table) makes `simulate` fail
with ConfigError; no state machine step is reached, so a run is never
partially simulated under an invalid configuration. -/
theorem simulate_invalid_config_error (cfg : Config) (S : ℕ)
    (closes : List (List ℚ)) (entries exits : List (List Bool))
    (h : cfg.fee_rate < 0 ∨ 1 ≤ cfg.fee_rate ∨ cfg.slippage_rate < 0 ∨
      1 ≤ cfg.slippage_rate ∨ cfg.initial_cash_per_symbol ≤ 0 ∨
      validShapes S closes entries exits = false) :
    simulate cfg S closes entries exits = Except.error ConfigError.mk := by
  have hv : validConfig cfg = false ∨
      validShapes S closes entries exits = false := by
    rcases h with h | h | h | h | h | h
    · left
      simp only [validConfig, Bool.and_eq_false_iff, decide_eq_false_iff_not]
      exact Or.inl (Or.inl (Or.inl (Or.inl (not_le.mpr h))))
    · left
      simp only [validConfig, Bool.and_eq_false_iff, decide_eq_false_iff_not]
      exact Or.inl (Or.inl (Or.inl (Or.inr (not_lt.mpr h))))
    · left
      simp only [validConfig, Bool.and_eq_false_iff, decide_eq_false_iff_not]
      exact Or.inl (Or.inl (Or.inr (not_le.mpr h)))
    · left
      simp only [validConfig, Bool.and_eq_false_iff, decide_eq_false_iff_not]
      exact Or.inl (Or.inr (not_lt.mpr h))
    · left
      simp only [validConfig, Bool.and_eq_false_iff, decide_eq_false_iff_not]
      exact Or.inr (not_lt.mpr h)
    · right
      exact h
  rcases hv with hv | hv <;> simp [simulate, hv]

/-- Witness for C4: a fee rate of 2 is rejected with ConfigError. -/
theorem simulate_invalid_config_error_witness :
    simulate ⟨10, 2, 0, none⟩ 1 [[100]] [[true]] [[false]] =
      Except.error ConfigError.mk :=
  simulate_invalid_config_error ⟨10, 2, 0, none⟩ 1 [[100]] [[true]] [[false]]
    (Or.inr (Or.inl (by norm_num)))

/-- C6: when both the entry and the exit signal are true on the same bar,
a FLAT symbol opens (entry takes precedence, no trade is emitted) and a
LONG symbol closes (exit dominates the entry, the trade is realized). -/
theorem simultaneous_signal_tie_break (cfg : Config) (st : SymState)
    (t : ℕ) (c : ℚ) :
    (st.pos.isOpen = false →
      (stepCell cfg st t ⟨c, true, true⟩).pos.isOpen = true ∧
      (stepCell cfg st t ⟨c, true, true⟩).pos.entryTime = t ∧
      (stepCell cfg st t ⟨c, true, true⟩).trades = st.trades) ∧
    (st.pos.isOpen = true →
      (stepCell cfg st t ⟨c, true, true⟩).pos = Position.flat ∧
      (stepCell cfg st t ⟨c, true, true⟩).trades =
        st.trades ++ [closeTrade cfg st.pos t c]) := by
  constructor <;> intro h <;> simp [stepCell, h]

/-- Witness for C6: the tie-break evaluated at a FLAT state and at a LONG
state under the scenario configuration. -/
theorem simultaneous_signal_tie_break_witness :
    ((stepCell scenarioConfig initState 0 ⟨100, true, true⟩).pos.isOpen = true ∧
      (stepCell scenarioConfig initState 0 ⟨100, true, true⟩).pos.entryTime = 0 ∧
      (stepCell scenarioConfig initState 0 ⟨100, true, true⟩).trades =
        initState.trades) ∧
    ((stepCell scenarioConfig ⟨⟨true, 0, 100, 1, 0⟩, 0, [], []⟩ 3
        ⟨100, true, true⟩).pos = Position.flat ∧
      (stepCell scenarioConfig ⟨⟨true, 0, 100, 1, 0⟩, 0, [], []⟩ 3
        ⟨100, true, true⟩).trades =
        [] ++ [closeTrade scenarioConfig ⟨true, 0, 100, 1, 0⟩ 3 100]) :=
  ⟨(simultaneous_signal_tie_break scenarioConfig initState 0 100).1 rfl,
   (simultaneous_signal_tie_break scenarioConfig
      ⟨⟨true, 0, 100, 1, 0⟩, 0, [], []⟩ 3 100).2 rfl⟩

end Strategies
